import Mathlib

/-!
Verification development for the `tuic-quinn` adapter crate
(`src/tuic-quinn/src/lib.rs`): a shallow embedding of the
session-multiplexing adapter between a QUIC transport and the TUIC
protocol model layer, together with theorems about its dispatch,
fragmentation, and reassembly behaviour.

The adapter itself (dispatch tables, channel handling, the
`packet_native` / `packet_quic` send paths, the `Packet` / `Connect`
objects) is translated from the source.  The protocol model layer
(header codec, fragmentation iterator, per-association reassembly) is a
collaborator crate whose code is not part of the sources here; those
definitions are modelled from the spec and are marked as such.
-/

namespace Tuic

/-- Wire bytes: each entry is one octet value. -/
abbrev Bytes := List Nat

/-- A receive stream, modelled by the bytes it still has to deliver
(after any header already decoded from it). -/
abbrev RecvStream := Bytes

/-- A send stream, modelled as an opaque numeric handle: the adapter
only ever hands it back inside errors or the `Connect` session. -/
abbrev SendStream := Nat

/-- Modelled from the spec: the protocol's target address (`tuic::Address`,
absent from the sources).  The spec's glossary describes it as a relay
target, either absent, a host:port domain pair, or a socket address. -/
inductive Address where
  | none : Address
  | domain (host : String) (port : Nat) : Address
  | socket (addr : Nat) (port : Nat) : Address
deriving DecidableEq

/-- Modelled from the spec: the per-fragment packet header carried by the
`Packet` command (association id, packet id, fragment total, fragment
index, declared payload size, target address); see spec §4.1 on fragment
headers and §4.3 on the self-describing header. -/
structure PacketHdr where
  assoc_id : Nat
  pkt_id : Nat
  frag_total : Nat
  frag_id : Nat
  size : Nat
  addr : Address
deriving DecidableEq

/-- Modelled from the spec: the decoded self-describing command header
(`tuic::Header`, absent from the sources).  One variant per command, as
matched in the dispatchers of `lib.rs`. -/
inductive Header where
  | authenticate (token : Bytes) : Header
  | connect (addr : Address) : Header
  | packet (pkt : PacketHdr) : Header
  | dissociate (assoc_id : Nat) : Header
  | heartbeat : Header
deriving DecidableEq

/-- Big-endian two-byte encoding of a (truncated) 16-bit value. -/
def u16Bytes (n : Nat) : Bytes := [n / 256 % 256, n % 256]

/-- Modelled from the spec: the byte encoding of an address, as used by
the external codec.  Only its length (header overhead) and concreteness
matter for the properties below. -/
def addrBytes : Address → Bytes
  | Address.none => [255]
  | Address.domain host port =>
      [0, host.length % 256] ++ host.toList.map Char.toNat ++ u16Bytes port
  | Address.socket a port =>
      [1, a / 16777216 % 256, a / 65536 % 256, a / 256 % 256, a % 256] ++ u16Bytes port

/-- Modelled from the spec: the marshalled size of a packet-command header
("header overhead" in spec §8): fixed fields plus the address encoding. -/
def hdrOverhead (addr : Address) : Nat := 10 + (addrBytes addr).length

/-- Modelled from the spec: marshalled bytes of a packet-command header
(`Header::write` / `async_marshal` of the external codec). -/
def marshalPkt (h : PacketHdr) : Bytes :=
  [5, 2] ++ u16Bytes h.assoc_id ++ u16Bytes h.pkt_id ++
    [h.frag_total % 256, h.frag_id % 256] ++ u16Bytes h.size ++ addrBytes h.addr

/-- Modelled from the spec: marshalled bytes of a heartbeat-command
header. -/
def marshalHeartbeat : Bytes := [5, 4]

/-- Fuel-driven worker for `chunksOf`: peels off `L`-byte chunks while
fuel lasts (any fuel at least the list length is enough when `L ≠ 0`). -/
def chunksOfF (L : Nat) : Nat → List Nat → List (List Nat)
  | _, [] => []
  | 0, _ :: _ => []
  | fuel + 1, x :: xs =>
      if L = 0 then []
      else (x :: xs).take L :: chunksOfF L fuel ((x :: xs).drop L)

/-- Modelled from the spec: split a byte string into consecutive chunks
of at most `L` bytes (the fragmentation step of the model layer's
`into_fragments`). -/
def chunksOf (L : Nat) (l : List Nat) : List (List Nat) := chunksOfF L l.length l

/-- Modelled from the spec: attach a packet header to each fragment,
numbering fragments consecutively from `i` with the shared fragment
total, association id, packet id and address. -/
def tagFrags (assoc pid total : Nat) (addr : Address) : Nat → List Bytes → List (PacketHdr × Bytes)
  | _, [] => []
  | i, f :: rest =>
      (⟨assoc, pid, total, i, f.length, addr⟩, f) :: tagFrags assoc pid total addr (i + 1) rest

/-- Modelled from the spec: the model layer's `into_fragments` — split the
payload into fragments sized to fit `maxSize` minus the header overhead,
each paired with its header carrying association id, fragment index and
total-fragment count (spec §4.1, §8). -/
def into_fragments (assoc pid : Nat) (addr : Address) (maxSize : Nat) (pkt : Bytes) :
    List (PacketHdr × Bytes) :=
  let frags := chunksOf (maxSize - hdrOverhead addr) pkt
  tagFrags assoc pid frags.length addr 0 frags

/-- One slot per expected fragment of a packet being reassembled. -/
structure BufEntry where
  total : Nat
  addr : Address
  slots : List (Option Bytes)
deriving DecidableEq

/-- Modelled from the spec: the state behind the shared
`ConnectionModel` handle — the associations established by the local
side's `send_packet` (used by the client's `recv_packet` validity check),
the next packet id, and the per-(association, packet) reassembly
buffers. -/
structure ConnModel where
  localAssocs : List Nat
  nextPktId : Nat
  buffers : List ((Nat × Nat) × BufEntry)
deriving DecidableEq

/-- Association-list lookup on the reassembly buffers. -/
def findBuf (key : Nat × Nat) : List ((Nat × Nat) × BufEntry) → Option BufEntry
  | [] => Option.none
  | (k, e) :: rest => if k = key then some e else findBuf key rest

/-- Association-list update (replace or append) on the reassembly
buffers. -/
def storeBuf (key : Nat × Nat) (e : BufEntry) :
    List ((Nat × Nat) × BufEntry) → List ((Nat × Nat) × BufEntry)
  | [] => [(key, e)]
  | (k, e') :: rest => if k = key then (k, e) :: rest else (k, e') :: storeBuf key e rest

/-- Association-list removal on the reassembly buffers. -/
def eraseBuf (key : Nat × Nat) : List ((Nat × Nat) × BufEntry) → List ((Nat × Nat) × BufEntry)
  | [] => []
  | (k, e') :: rest => if k = key then rest else (k, e') :: eraseBuf key rest

/-- The adapter's error taxonomy (`enum Error` of `lib.rs`), with QUIC
channels represented by numeric handles and datagrams by their bytes. -/
inductive Err where
  | sendDatagramDisabled : Err
  | payloadLength (expected got : Nat) : Err
  | invalidUdpSession (assocId : Nat) : Err
  | assembleErr : Err
  | earlyClose : Err
  | badCommandUniStream (cmd : String) (recv : RecvStream) : Err
  | badCommandBiStream (cmd : String) (send : SendStream) (recv : RecvStream) : Err
  | badCommandDatagram (cmd : String) (bytes : Bytes) : Err
deriving DecidableEq

/-- The slot-insertion half of the model's reassembly step, on the
looked-up (or freshly created) buffer entry: rejects a total mismatch or
duplicate fragment, inserts the fragment into its slot, and reports the
reassembled payload when every slot is filled. -/
def assembleEntry (m : ConnModel) (hdr : PacketHdr) (data : Bytes) (entry : BufEntry) :
    Except Err (Option (Bytes × Address × Nat) × ConnModel) :=
  if entry.total = hdr.frag_total ∧ entry.slots[hdr.frag_id]?.getD Option.none = Option.none then
    if (entry.slots.set hdr.frag_id (some data)).all Option.isSome then
      .ok (some ((((entry.slots.set hdr.frag_id (some data)).filterMap id).flatten, entry.addr,
          hdr.assoc_id)),
        { m with buffers := eraseBuf (hdr.assoc_id, hdr.pkt_id) m.buffers })
    else
      .ok (Option.none,
        { m with buffers := (storeBuf (hdr.assoc_id, hdr.pkt_id)
            (BufEntry.mk entry.total entry.addr (entry.slots.set hdr.frag_id (some data)))
            m.buffers) })
  else .error .assembleErr

/-- Modelled from the spec: the model layer's reassembly step (the
`assemble` consumed by `Packet::accept`).  Validates the fragment against
its header and the buffered state, inserts it into its slot, and either
reports the fully reassembled payload (with address and association id,
dropping the buffer) or buffers the fragment and reports nothing yet.
Inconsistencies (size mismatch, fragment index out of range, total
mismatch, duplicate fragment) are reassembly errors (spec §7). -/
def ConnModel.assemble (m : ConnModel) (hdr : PacketHdr) (data : Bytes) :
    Except Err (Option (Bytes × Address × Nat) × ConnModel) :=
  if data.length = hdr.size ∧ hdr.frag_id < hdr.frag_total then
    assembleEntry m hdr data
      ((findBuf (hdr.assoc_id, hdr.pkt_id) m.buffers).getD
        ⟨hdr.frag_total, hdr.addr, List.replicate hdr.frag_total Option.none⟩)
  else .error .assembleErr

/-- Feed a list of fragments (header plus payload) to the model one at a
time, as a receiver would; returns the outcome of the final step. -/
def recvAll (m : ConnModel) (r : Option (Bytes × Address × Nat)) :
    List (PacketHdr × Bytes) → Except Err (Option (Bytes × Address × Nat) × ConnModel)
  | [] => .ok (r, m)
  | (hdr, b) :: rest =>
      match m.assemble hdr b with
      | .error e => .error e
      | .ok (r', m') => recvAll m' r' rest

/-- The transport handle: all the adapter consumes from it for the
properties below is whether unreliable datagrams are supported and, if
so, the maximum datagram size (`max_datagram_size`). -/
structure Transport where
  maxDatagramSize : Option Nat
deriving DecidableEq

/-- `Connection::packet_native` of `lib.rs`: fails with a datagram-send
error when the transport reports no maximum datagram size; otherwise
fragments the payload via the model at the transport's limit and sends
one datagram per fragment.  Each datagram's bytes follow the source
line by line: `vec![0; header.len() + frag.len()]` produces that many
zero bytes, and the subsequent header write and `put_slice` append after
them. -/
def packet_native (tr : Transport) (m : ConnModel) (pkt : Bytes) (addr : Address) (assoc : Nat) :
    Except Err (List Bytes) :=
  match tr.maxDatagramSize with
  | Option.none => .error .sendDatagramDisabled
  | some maxPktSize =>
      .ok ((into_fragments assoc m.nextPktId addr maxPktSize pkt).map
        (fun hf => List.replicate ((marshalPkt hf.1).length + hf.2.length) 0 ++
          marshalPkt hf.1 ++ hf.2))

/-- `Connection::packet_quic` of `lib.rs`: fragments the payload via the
model at a maximum size of `u16::MAX = 65535`, and for each fragment
opens a fresh unidirectional channel, writes the marshalled header
followed by the fragment bytes, and closes the channel.  The result is
the per-channel transcript list, one entry per opened channel in order. -/
def packet_quic (m : ConnModel) (pkt : Bytes) (addr : Address) (assoc : Nat) : List Bytes :=
  (into_fragments assoc m.nextPktId addr 65535 pkt).map
    (fun hf => marshalPkt hf.1 ++ hf.2)

/-- `Connection<side::Client>::heartbeat` of `lib.rs`: marshals a
heartbeat header into a fresh buffer and sends it as one unreliable
datagram; the send fails when the transport has datagram support
disabled. -/
def heartbeat (tr : Transport) : Except Err Bytes :=
  match tr.maxDatagramSize with
  | Option.none => .error .sendDatagramDisabled
  | some _ => .ok marshalHeartbeat

/-- The two halves of the `Connect` session's model
(`Side<ConnectModel<Tx>, ConnectModel<Rx>>`): the client side stores the
header it sent, the server side stores the address extracted from the
received header. -/
inductive ConnectSide where
  | client (h : Header) : ConnectSide
  | server (addr : Address) : ConnectSide
deriving DecidableEq

/-- The `Connect` session object of `lib.rs`: model side plus the two
halves of the bidirectional channel (as numeric handles). -/
structure Connect where
  model : ConnectSide
  send : SendStream
  recv : RecvStream
deriving DecidableEq

/-- `Connect::addr` of `lib.rs`: on the client side it destructures the
stored header, with a panicking `unreachable!` branch for non-connect
headers (modelled as `Option.none`); on the server side it reads the
stored address. -/
def Connect.addr : Connect → Option Address
  | ⟨ConnectSide.client h, _, _⟩ =>
      match h with
      | Header.connect a => some a
      | _ => Option.none
  | ⟨ConnectSide.server a, _, _⟩ => some a

/-- The payload source of a `Packet` (`enum PacketSource` of `lib.rs`):
either a pending unidirectional-stream read (the stream's full byte
contents) or already-resident bytes. -/
inductive PacketSource where
  | quic (stream : Bytes) : PacketSource
  | native (b : Bytes) : PacketSource
deriving DecidableEq

/-- The `Packet` reassembly object of `lib.rs`: the model-side header of
the fragment it stands for, plus its payload source. -/
structure Packet where
  hdr : PacketHdr
  src : PacketSource
deriving DecidableEq

/-- `Packet::accept` of `lib.rs`: resolve the payload source — for a
stream source, one `read_exact` of exactly the header-declared size,
failing if the stream ends earlier; for resident bytes, the bytes
themselves — then hand the payload to the model's assemble step. -/
def Packet.accept (p : Packet) (m : ConnModel) :
    Except Err (Option (Bytes × Address × Nat) × ConnModel) :=
  match p.src with
  | PacketSource.quic s =>
      if p.hdr.size ≤ s.length then m.assemble p.hdr (s.take p.hdr.size)
      else .error .earlyClose
  | PacketSource.native b => m.assemble p.hdr b

/-- The classified inbound command (`enum Task` of `lib.rs`). -/
inductive Task where
  | authenticate (token : Bytes) : Task
  | connect (c : Connect) : Task
  | packet (p : Packet) : Task
  | dissociate (assocId : Nat) : Task
  | heartbeat : Task
deriving DecidableEq

/-- `Connection<side::Client>::accept_uni_stream` of `lib.rs`, after the
header has been decoded from the stream `recv`: authenticate, connect,
dissociate and heartbeat are bad commands on a client unidirectional
stream; a packet is accepted with a deferred stream read when its
association id was established by this client's sends (`recv_packet`),
and is an invalid-session error otherwise. -/
def clientAcceptUniStream (m : ConnModel) (recv : RecvStream) (h : Header) : Except Err Task :=
  match h with
  | Header.authenticate _ => .error (.badCommandUniStream "authenticate" recv)
  | Header.connect _ => .error (.badCommandUniStream "connect" recv)
  | Header.packet pkt =>
      if pkt.assoc_id ∈ m.localAssocs then .ok (.packet ⟨pkt, .quic recv⟩)
      else .error (.invalidUdpSession pkt.assoc_id)
  | Header.dissociate _ => .error (.badCommandUniStream "dissociate" recv)
  | Header.heartbeat => .error (.badCommandUniStream "heartbeat" recv)

/-- `Connection<side::Client>::accept_bi_stream` of `lib.rs`, after the
header has been decoded: every command is a bad command on a client
bidirectional stream, and the error returns both channel halves. -/
def clientAcceptBiStream (m : ConnModel) (send : SendStream) (recv : RecvStream) (h : Header) :
    Except Err Task :=
  match h with
  | Header.authenticate _ => .error (.badCommandBiStream "authenticate" send recv)
  | Header.connect _ => .error (.badCommandBiStream "connect" send recv)
  | Header.packet _ => .error (.badCommandBiStream "packet" send recv)
  | Header.dissociate _ => .error (.badCommandBiStream "dissociate" send recv)
  | Header.heartbeat => .error (.badCommandBiStream "heartbeat" send recv)

/-- `Connection<side::Client>::accept_datagram` of `lib.rs`, after the
header has been decoded from the datagram `buf` leaving the cursor at
`pos`: non-packet commands are bad commands carrying the whole original
datagram; a packet is first validated against the established
associations, then the declared size is compared against the remaining
bytes with the source's strict `<` check, slicing out the payload on
success and reporting a payload-length error otherwise. -/
def clientAcceptDatagram (m : ConnModel) (buf : Bytes) (pos : Nat) (h : Header) :
    Except Err Task :=
  match h with
  | Header.authenticate _ => .error (.badCommandDatagram "authenticate" buf)
  | Header.connect _ => .error (.badCommandDatagram "connect" buf)
  | Header.packet pkt =>
      if pkt.assoc_id ∈ m.localAssocs then
        if pos + pkt.size < buf.length then
          .ok (.packet ⟨pkt, .native ((buf.drop pos).take pkt.size)⟩)
        else .error (.payloadLength pkt.size (buf.length - pos))
      else .error (.invalidUdpSession pkt.assoc_id)
  | Header.dissociate _ => .error (.badCommandDatagram "dissociate" buf)
  | Header.heartbeat => .error (.badCommandDatagram "heartbeat" buf)

/-- `Connection<side::Server>::accept_uni_stream` of `lib.rs`, after the
header has been decoded: authenticate yields its token, a packet is
accepted unconditionally (`recv_packet_unrestricted`) with a deferred
stream read, dissociate yields its association id; connect and heartbeat
are bad commands on a server unidirectional stream. -/
def serverAcceptUniStream (m : ConnModel) (recv : RecvStream) (h : Header) : Except Err Task :=
  match h with
  | Header.authenticate token => .ok (.authenticate token)
  | Header.connect _ => .error (.badCommandUniStream "connect" recv)
  | Header.packet pkt => .ok (.packet ⟨pkt, .quic recv⟩)
  | Header.dissociate assocId => .ok (.dissociate assocId)
  | Header.heartbeat => .error (.badCommandUniStream "heartbeat" recv)

/-- `Connection<side::Server>::accept_bi_stream` of `lib.rs`, after the
header has been decoded: a connect is accepted, producing a `Connect`
session carrying the received address; every other command is a bad
command on a server bidirectional stream. -/
def serverAcceptBiStream (m : ConnModel) (send : SendStream) (recv : RecvStream) (h : Header) :
    Except Err Task :=
  match h with
  | Header.authenticate _ => .error (.badCommandBiStream "authenticate" send recv)
  | Header.connect a => .ok (.connect ⟨ConnectSide.server a, send, recv⟩)
  | Header.packet _ => .error (.badCommandBiStream "packet" send recv)
  | Header.dissociate _ => .error (.badCommandBiStream "dissociate" send recv)
  | Header.heartbeat => .error (.badCommandBiStream "heartbeat" send recv)

/-- `Connection<side::Server>::accept_datagram` of `lib.rs`, after the
header has been decoded from the datagram `buf` leaving the cursor at
`pos`: non-packet commands other than heartbeat are bad commands carrying
the whole original datagram; heartbeat is accepted; a packet is accepted
unconditionally and sliced with no length check, so a declared size
exceeding the remaining bytes makes the source's `slice` call panic
(modelled as `Option.none`). -/
def serverAcceptDatagram (m : ConnModel) (buf : Bytes) (pos : Nat) (h : Header) :
    Option (Except Err Task) :=
  match h with
  | Header.authenticate _ => some (.error (.badCommandDatagram "authenticate" buf))
  | Header.connect _ => some (.error (.badCommandDatagram "connect" buf))
  | Header.packet pkt =>
      if pos + pkt.size ≤ buf.length then
        some (.ok (.packet ⟨pkt, .native ((buf.drop pos).take pkt.size)⟩))
      else Option.none
  | Header.dissociate _ => some (.error (.badCommandDatagram "dissociate" buf))
  | Header.heartbeat => some (.ok .heartbeat)

/-- `Connection<side::Client>::connect` of `lib.rs`: build the send-side
connect model for the given address, open a bidirectional channel, write
the header, and return the `Connect` session immediately. -/
def clientConnect (a : Address) (send : SendStream) (recv : RecvStream) : Connect :=
  ⟨ConnectSide.client (Header.connect a), send, recv⟩

/-- The `Connect` values the adapter's public interface can produce:
`Connection<side::Client>::connect`, or a `Task::Connect` out of
`Connection<side::Server>::accept_bi_stream` (the only two call sites of
the private `Connect::new`). -/
inductive ConnectFromAPI : Connect → Prop where
  | ofClientConnect (a : Address) (send : SendStream) (recv : RecvStream) :
      ConnectFromAPI (clientConnect a send recv)
  | ofServerAccept (m : ConnModel) (send : SendStream) (recv : RecvStream) (a : Address)
      (c : Connect) :
      serverAcceptBiStream m send recv (Header.connect a) = .ok (Task.connect c) →
      ConnectFromAPI c

/-- Names of the public outbound sender methods in the role-generic
`impl<Side> Connection<Side>` block of `lib.rs`. -/
def sharedSenderFns : List String := ["packet_native", "packet_quic"]

/-- Names of the public outbound sender methods declared only in the
`impl Connection<side::Client>` block of `lib.rs`. -/
def clientOnlySenderFns : List String := ["authenticate", "connect", "dissociate", "heartbeat"]

/-- The outbound senders available on a client-role connection. -/
def clientSenderFns : List String := sharedSenderFns ++ clientOnlySenderFns

/-- The outbound senders available on a server-role connection: the
`impl Connection<side::Server>` block of `lib.rs` declares only `new` and
the three accept methods, so only the shared senders remain. -/
def serverSenderFns : List String := sharedSenderFns

/-- Reassembly slots holding exactly the fragments of `frags` whose
indices are listed in `done` (proof vocabulary for buffer states). -/
def slotsFor (frags : List Bytes) (done : List Nat) : List (Option Bytes) :=
  (List.range frags.length).map (fun j => if j ∈ done then frags[j]? else Option.none)

/-- The buffer store of a model that has received exactly the fragments
of `frags` listed in `done` for the packet `(assoc, pid)` (proof
vocabulary for buffer states). -/
def bufsFor (assoc pid : Nat) (addr : Address) (frags : List Bytes) (done : List Nat) :
    List ((Nat × Nat) × BufEntry) :=
  if done = [] then [] else [((assoc, pid), ⟨frags.length, addr, slotsFor frags done⟩)]

/-! ### Helper lemmas about chunking and fragment tagging -/

theorem chunksOfF_flatten {L : Nat} (hL : L ≠ 0) :
    ∀ (fuel : Nat) (l : List Nat), l.length ≤ fuel → (chunksOfF L fuel l).flatten = l := by
  intro fuel
  induction fuel with
  | zero =>
      intro l hl
      cases l with
      | nil => rfl
      | cons x xs => simp at hl
  | succ fuel ih =>
      intro l hl
      cases l with
      | nil => rfl
      | cons x xs =>
          have h' : ((x :: xs).drop L).length ≤ fuel := by
            simp only [List.length_drop, List.length_cons]
            simp only [List.length_cons] at hl
            omega
          simp only [chunksOfF, if_neg hL, List.flatten_cons, ih _ h', List.take_append_drop]

theorem chunksOf_flatten {L : Nat} (hL : L ≠ 0) (l : List Nat) :
    (chunksOf L l).flatten = l :=
  chunksOfF_flatten hL l.length l le_rfl

theorem chunksOfF_length {L : Nat} (hL : L ≠ 0) :
    ∀ (fuel : Nat) (l : List Nat), l.length ≤ fuel →
      (chunksOfF L fuel l).length = (l.length + L - 1) / L := by
  intro fuel
  induction fuel with
  | zero =>
      intro l hl
      cases l with
      | nil => simp [chunksOfF, Nat.div_eq_of_lt (by omega : L - 1 < L)]
      | cons x xs => simp at hl
  | succ fuel ih =>
      intro l hl
      cases l with
      | nil => simp [chunksOfF, Nat.div_eq_of_lt (by omega : L - 1 < L)]
      | cons x xs =>
          have h' : ((x :: xs).drop L).length ≤ fuel := by
            simp only [List.length_drop, List.length_cons]
            simp only [List.length_cons] at hl
            omega
          simp only [chunksOfF, if_neg hL, List.length_cons, ih _ h', List.length_drop]
          rcases Nat.le_total L (xs.length + 1) with hcase | hcase
          · have h1 : xs.length + 1 - L + L - 1 = xs.length := by omega
            have h2 : xs.length + 1 + L - 1 = xs.length + L := by omega
            rw [h1, h2, Nat.add_div_right _ (Nat.pos_of_ne_zero hL)]
          · have h1 : xs.length + 1 - L = 0 := by omega
            have h2 : (0 + L - 1) / L = 0 := Nat.div_eq_of_lt (by omega)
            have h3 : (xs.length + 1 + L - 1) / L = 1 := by
              apply Nat.div_eq_of_lt_le <;> omega
            rw [h1, h2, h3]

theorem chunksOf_length {L : Nat} (hL : L ≠ 0) (l : List Nat) :
    (chunksOf L l).length = (l.length + L - 1) / L :=
  chunksOfF_length hL l.length l le_rfl

theorem mem_chunksOfF {L : Nat} :
    ∀ (fuel : Nat) (l : List Nat) (c : List Nat), c ∈ chunksOfF L fuel l → c.length ≤ L := by
  intro fuel
  induction fuel with
  | zero =>
      intro l c hc
      cases l <;> simp [chunksOfF] at hc
  | succ fuel ih =>
      intro l c hc
      cases l with
      | nil => simp [chunksOfF] at hc
      | cons x xs =>
          by_cases hL : L = 0
          · simp [chunksOfF, hL] at hc
          · simp only [chunksOfF, if_neg hL, List.mem_cons] at hc
            rcases hc with hc | hc
            · subst hc
              simp [List.length_take]
            · exact ih _ _ hc

theorem mem_chunksOf {L : Nat} {l c : List Nat} (hc : c ∈ chunksOf L l) : c.length ≤ L :=
  mem_chunksOfF l.length l c hc

theorem tagFrags_length (assoc pid total : Nat) (addr : Address) :
    ∀ (fs : List Bytes) (i : Nat), (tagFrags assoc pid total addr i fs).length = fs.length := by
  intro fs
  induction fs with
  | nil => intro i; rfl
  | cons f rest ih => intro i; simp [tagFrags, ih]

theorem tagFrags_map_fragId (assoc pid total : Nat) (addr : Address) :
    ∀ (fs : List Bytes) (i : Nat),
      (tagFrags assoc pid total addr i fs).map (fun q => q.1.frag_id) =
        List.range' i fs.length := by
  intro fs
  induction fs with
  | nil => intro i; rfl
  | cons f rest ih =>
      intro i
      simp only [tagFrags, List.map_cons, List.length_cons, List.range'_succ, ih]

theorem tagFrags_map_snd (assoc pid total : Nat) (addr : Address) :
    ∀ (fs : List Bytes) (i : Nat), (tagFrags assoc pid total addr i fs).map (fun q => q.2) = fs := by
  intro fs
  induction fs with
  | nil => intro i; rfl
  | cons f rest ih => intro i; simp [tagFrags, ih]

theorem mem_tagFrags (assoc pid total : Nat) (addr : Address) :
    ∀ (fs : List Bytes) (i : Nat) (q : PacketHdr × Bytes), q ∈ tagFrags assoc pid total addr i fs →
      ∃ j, j < fs.length ∧ fs[j]? = some q.2 ∧
        q.1 = ⟨assoc, pid, total, i + j, q.2.length, addr⟩ := by
  intro fs
  induction fs with
  | nil => intro i q hq; simp [tagFrags] at hq
  | cons f rest ih =>
      intro i q hq
      simp only [tagFrags, List.mem_cons] at hq
      rcases hq with hq | hq
      · refine ⟨0, by simp, ?_, ?_⟩
        · simp [hq]
        · simp [hq]
      · obtain ⟨j, hj, hjb, hq1⟩ := ih (i + 1) q hq
        refine ⟨j + 1, by simp; omega, by simpa using hjb, ?_⟩
        have harith : i + (j + 1) = i + 1 + j := by omega
        rw [harith]
        exact hq1

theorem into_fragments_length {addr : Address} {maxSize : Nat}
    (hL : hdrOverhead addr < maxSize) (assoc pid : Nat) (pkt : Bytes) :
    (into_fragments assoc pid addr maxSize pkt).length =
      (pkt.length + (maxSize - hdrOverhead addr) - 1) / (maxSize - hdrOverhead addr) := by
  unfold into_fragments
  rw [tagFrags_length, chunksOf_length (by omega)]

theorem into_fragments_map_fragId (assoc pid : Nat) (addr : Address) (maxSize : Nat)
    (pkt : Bytes) :
    (into_fragments assoc pid addr maxSize pkt).map (fun q => q.1.frag_id) =
      List.range (into_fragments assoc pid addr maxSize pkt).length := by
  unfold into_fragments
  rw [tagFrags_map_fragId, tagFrags_length, List.range_eq_range']

theorem mem_into_fragments {assoc pid : Nat} {addr : Address} {maxSize : Nat} {pkt : Bytes}
    {q : PacketHdr × Bytes} (hq : q ∈ into_fragments assoc pid addr maxSize pkt) :
    ∃ j, j < (chunksOf (maxSize - hdrOverhead addr) pkt).length ∧
      (chunksOf (maxSize - hdrOverhead addr) pkt)[j]? = some q.2 ∧
      q.1 = ⟨assoc, pid, (chunksOf (maxSize - hdrOverhead addr) pkt).length, j,
        q.2.length, addr⟩ := by
  unfold into_fragments at hq
  obtain ⟨j, hj, hjb, hq1⟩ := mem_tagFrags _ _ _ _ _ _ _ hq
  exact ⟨j, hj, hjb, by simpa using hq1⟩

/-! ### Helper lemmas about reassembly buffer states -/

theorem slotsFor_length (frags : List Bytes) (done : List Nat) :
    (slotsFor frags done).length = frags.length := by
  simp [slotsFor]

theorem slotsFor_getElem?_lt (frags : List Bytes) (done : List Nat) {j : Nat}
    (hj : j < frags.length) :
    (slotsFor frags done)[j]? = some (if j ∈ done then frags[j]? else Option.none) := by
  simp [slotsFor, List.getElem?_range hj]

theorem slotsFor_getElem?_ge (frags : List Bytes) (done : List Nat) {j : Nat}
    (hj : frags.length ≤ j) :
    (slotsFor frags done)[j]? = Option.none := by
  rw [List.getElem?_eq_none]
  rw [slotsFor_length]
  exact hj

theorem slotsFor_nil (frags : List Bytes) :
    slotsFor frags [] = List.replicate frags.length Option.none := by
  apply List.ext_getElem?
  intro j
  by_cases hj : j < frags.length
  · rw [slotsFor_getElem?_lt _ _ hj, List.getElem?_replicate, if_pos hj]
    simp
  · rw [slotsFor_getElem?_ge _ _ (by omega), List.getElem?_replicate, if_neg hj]

theorem slotsFor_set (frags : List Bytes) (done : List Nat) {i : Nat} {b : Bytes}
    (hi : i < frags.length) (hib : frags[i]? = some b) :
    (slotsFor frags done).set i (some b) = slotsFor frags (i :: done) := by
  apply List.ext_getElem?
  intro j
  rw [List.getElem?_set]
  by_cases hij : i = j
  · subst hij
    rw [if_pos rfl, if_pos (by rw [slotsFor_length]; exact hi),
      slotsFor_getElem?_lt _ _ hi, if_pos (List.mem_cons_self i done), hib]
  · rw [if_neg hij]
    by_cases hj : j < frags.length
    · rw [slotsFor_getElem?_lt _ _ hj, slotsFor_getElem?_lt _ _ hj]
      have hiff : (j ∈ i :: done) ↔ j ∈ done := by
        constructor
        · intro hm
          rcases List.mem_cons.mp hm with hm | hm
          · exact absurd hm.symm hij
          · exact hm
        · intro hm
          exact List.mem_cons_of_mem _ hm
      exact (congrArg some (if_congr hiff rfl rfl)).symm
    · rw [slotsFor_getElem?_ge _ _ (by omega), slotsFor_getElem?_ge _ _ (by omega)]

theorem slotsFor_all_isSome (frags : List Bytes) (done : List Nat) :
    (slotsFor frags done).all Option.isSome = true ↔ ∀ j < frags.length, j ∈ done := by
  rw [List.all_eq_true]
  constructor
  · intro h j hj
    by_contra hjd
    have hmem : (Option.none : Option Bytes) ∈ slotsFor frags done := by
      unfold slotsFor
      rw [List.mem_map]
      exact ⟨j, List.mem_range.mpr hj, by rw [if_neg hjd]⟩
    have := h _ hmem
    simp at this
  · intro h x hx
    unfold slotsFor at hx
    rw [List.mem_map] at hx
    obtain ⟨j, hjr, hfx⟩ := hx
    have hj : j < frags.length := List.mem_range.mp hjr
    rw [if_pos (h j hj)] at hfx
    have hb : frags[j]? = some frags[j] := List.getElem?_eq_getElem hj
    rw [hb] at hfx
    rw [← hfx]
    rfl

theorem slotsFor_complete (frags : List Bytes) (done : List Nat)
    (h : ∀ j < frags.length, j ∈ done) :
    slotsFor frags done = frags.map some := by
  apply List.ext_getElem?
  intro j
  by_cases hj : j < frags.length
  · rw [slotsFor_getElem?_lt _ _ hj, if_pos (h j hj), List.getElem?_map]
    have hb : frags[j]? = some frags[j] := List.getElem?_eq_getElem hj
    rw [hb]
    rfl
  · rw [slotsFor_getElem?_ge _ _ (by omega), List.getElem?_eq_none (by simp; omega)]

theorem filterMap_id_map_some (l : List Bytes) : (l.map some).filterMap id = l := by
  induction l with
  | nil => rfl
  | cons x xs ih => simp [List.filterMap_cons, ih]

theorem findBuf_bufsFor (assoc pid : Nat) (addr : Address) (frags : List Bytes)
    (done : List Nat) :
    findBuf (assoc, pid) (bufsFor assoc pid addr frags done) =
      if done = [] then Option.none
      else some ⟨frags.length, addr, slotsFor frags done⟩ := by
  by_cases h : done = [] <;> simp [bufsFor, findBuf, h]

theorem eraseBuf_bufsFor (assoc pid : Nat) (addr : Address) (frags : List Bytes)
    (done : List Nat) :
    eraseBuf (assoc, pid) (bufsFor assoc pid addr frags done) = [] := by
  by_cases h : done = [] <;> simp [bufsFor, eraseBuf, h]

theorem storeBuf_bufsFor (assoc pid : Nat) (addr : Address) (frags : List Bytes)
    (done : List Nat) (e : BufEntry) :
    storeBuf (assoc, pid) e (bufsFor assoc pid addr frags done) = [((assoc, pid), e)] := by
  by_cases h : done = [] <;> simp [bufsFor, storeBuf, h]

/-- One reassembly step on a buffer state holding exactly the fragments
listed in `done`: the fresh fragment `i` is slotted in, completing the
packet exactly when every index is now present. -/
theorem assemble_bufsFor (frags : List Bytes) (assoc pid : Nat) (addr : Address)
    (la : List Nat) (np : Nat) (done : List Nat) {i : Nat} {b : Bytes}
    (hi : i < frags.length) (hib : frags[i]? = some b) (hni : i ∉ done) :
    ConnModel.assemble ⟨la, np, bufsFor assoc pid addr frags done⟩
        ⟨assoc, pid, frags.length, i, b.length, addr⟩ b =
      if (slotsFor frags (i :: done)).all Option.isSome then
        .ok (some ((frags.flatten, addr, assoc)), ⟨la, np, []⟩)
      else
        .ok (Option.none, ⟨la, np, bufsFor assoc pid addr frags (i :: done)⟩) := by
  unfold ConnModel.assemble
  rw [if_pos ⟨rfl, hi⟩]
  have hentry : ((findBuf (assoc, pid) (bufsFor assoc pid addr frags done)).getD
      ⟨frags.length, addr, List.replicate frags.length Option.none⟩) =
      BufEntry.mk frags.length addr (slotsFor frags done) := by
    rw [findBuf_bufsFor]
    by_cases h : done = []
    · rw [if_pos h, h, slotsFor_nil]
      rfl
    · rw [if_neg h]
      rfl
  show assembleEntry _ _ _ _ = _
  rw [hentry]
  unfold assembleEntry
  rw [if_pos ⟨rfl, by rw [slotsFor_getElem?_lt _ _ hi, if_neg hni]; rfl⟩]
  rw [slotsFor_set frags done hi hib]
  by_cases hall : (slotsFor frags (i :: done)).all Option.isSome
  · rw [if_pos hall, if_pos hall]
    have hc : ∀ j < frags.length, j ∈ i :: done := (slotsFor_all_isSome _ _).1 hall
    rw [slotsFor_complete _ _ hc, filterMap_id_map_some]
    have herase : eraseBuf (assoc, pid) (bufsFor assoc pid addr frags done) = [] :=
      eraseBuf_bufsFor assoc pid addr frags done
    simp only [herase]
  · rw [if_neg hall, if_neg hall]
    rw [storeBuf_bufsFor]
    have hstore : bufsFor assoc pid addr frags (i :: done) =
        [((assoc, pid), ⟨frags.length, addr, slotsFor frags (i :: done)⟩)] := by
      simp [bufsFor]
    rw [hstore]

/-- Feeding a packet's remaining fragments, in any order captured by the
key permutation hypothesis, to a model whose buffer holds exactly the
fragments listed in `done` ends with the fully reassembled payload and an
empty buffer store. -/
theorem recvAll_bufsFor (frags : List Bytes) (assoc pid : Nat) (addr : Address)
    (la : List Nat) (np : Nat) :
    ∀ (todo : List (PacketHdr × Bytes)) (done : List Nat)
      (r : Option (Bytes × Address × Nat)),
      todo ≠ [] →
      (∀ q ∈ todo, ∃ j, j < frags.length ∧ frags[j]? = some q.2 ∧
        q.1 = ⟨assoc, pid, frags.length, j, q.2.length, addr⟩) →
      ((todo.map fun q => q.1.frag_id) ++ done).Perm (List.range frags.length) →
      recvAll ⟨la, np, bufsFor assoc pid addr frags done⟩ r todo =
        .ok (some ((frags.flatten, addr, assoc)), ⟨la, np, []⟩) := by
  intro todo
  induction todo with
  | nil => intro done r hne; exact absurd rfl hne
  | cons q rest ih =>
      intro done r _ hmem hperm
      obtain ⟨qh, qb⟩ := q
      obtain ⟨j, hj, hjb, hq1⟩ := hmem _ (List.mem_cons_self _ _)
      simp only at hq1
      subst hq1
      simp only [List.map_cons, List.cons_append] at hperm
      have hnodup : (j :: ((rest.map fun q => q.1.frag_id) ++ done)).Nodup :=
        (List.Perm.nodup_iff hperm).mpr (List.nodup_range _)
      have hjrest : j ∉ (rest.map fun q => q.1.frag_id) ++ done :=
        (List.nodup_cons.mp hnodup).1
      have hni : j ∉ done := fun h => hjrest (List.mem_append.mpr (Or.inr h))
      rw [recvAll, assemble_bufsFor frags assoc pid addr la np done hj hjb hni]
      cases rest with
      | nil =>
          have hall : ∀ k < frags.length, k ∈ j :: done := by
            intro k hk
            have : k ∈ j :: ([] ++ done) := (List.Perm.mem_iff hperm.symm).mp
              (List.mem_range.mpr hk)
            simpa using this
          rw [if_pos ((slotsFor_all_isSome _ _).2 hall)]
          rfl
      | cons q' rest' =>
          obtain ⟨k, hk, _, hq'1⟩ := hmem _ (List.mem_cons_of_mem _ (List.mem_cons_self _ _))
          have hkmem : q'.1.frag_id ∈ (List.map (fun q => q.1.frag_id) (q' :: rest')) ++ done :=
            List.mem_append.mpr (Or.inl (by simp))
          have hkni : q'.1.frag_id ∉ (j :: done) := by
            intro hmemk
            rcases List.mem_cons.mp hmemk with hkj | hkd
            · exact hjrest (hkj ▸ hkmem)
            · have hdisj := List.disjoint_of_nodup_append (List.nodup_cons.mp hnodup).2
              exact hdisj (List.mem_map.mpr ⟨q', List.mem_cons_self _ _, rfl⟩) hkd
          have hnall : ¬ (slotsFor frags (j :: done)).all Option.isSome := by
            intro hcontra
            have := (slotsFor_all_isSome _ _).1 hcontra q'.1.frag_id (by rw [hq'1]; exact hk)
            exact hkni this
          rw [if_neg hnall]
          show recvAll _ _ (q' :: rest') = _
          apply ih
          · simp
          · intro p hp
            exact hmem p (List.mem_cons_of_mem _ hp)
          · exact (List.perm_middle).trans hperm

theorem marshalPkt_length (h : PacketHdr) : (marshalPkt h).length = hdrOverhead h.addr := by
  simp [marshalPkt, hdrOverhead, u16Bytes]
  omega

/-! ### Claim theorems -/

/-- C1: For every inbound channel and both roles, a decoded command that
is illegal for its (channel kind, role) pair per the dispatch table —
authenticate only on a server uni-stream, connect only on a server
bi-stream, packet on uni-stream or datagram for both roles, dissociate
only on a server uni-stream, heartbeat only on a server datagram — makes
the accept method return a bad-command error naming the offending
command and carrying the original channel(s)/bytes, never a `Task`. -/
theorem c1_dispatch_legality (m : ConnModel) (recv : RecvStream) (send : SendStream)
    (buf : Bytes) (pos : Nat) (token : Bytes) (a : Address) (pkt : PacketHdr) (aid : Nat) :
    clientAcceptUniStream m recv (Header.authenticate token) =
      .error (.badCommandUniStream "authenticate" recv) ∧
    clientAcceptUniStream m recv (Header.connect a) =
      .error (.badCommandUniStream "connect" recv) ∧
    clientAcceptUniStream m recv (Header.dissociate aid) =
      .error (.badCommandUniStream "dissociate" recv) ∧
    clientAcceptUniStream m recv Header.heartbeat =
      .error (.badCommandUniStream "heartbeat" recv) ∧
    clientAcceptBiStream m send recv (Header.authenticate token) =
      .error (.badCommandBiStream "authenticate" send recv) ∧
    clientAcceptBiStream m send recv (Header.connect a) =
      .error (.badCommandBiStream "connect" send recv) ∧
    clientAcceptBiStream m send recv (Header.packet pkt) =
      .error (.badCommandBiStream "packet" send recv) ∧
    clientAcceptBiStream m send recv (Header.dissociate aid) =
      .error (.badCommandBiStream "dissociate" send recv) ∧
    clientAcceptBiStream m send recv Header.heartbeat =
      .error (.badCommandBiStream "heartbeat" send recv) ∧
    clientAcceptDatagram m buf pos (Header.authenticate token) =
      .error (.badCommandDatagram "authenticate" buf) ∧
    clientAcceptDatagram m buf pos (Header.connect a) =
      .error (.badCommandDatagram "connect" buf) ∧
    clientAcceptDatagram m buf pos (Header.dissociate aid) =
      .error (.badCommandDatagram "dissociate" buf) ∧
    clientAcceptDatagram m buf pos Header.heartbeat =
      .error (.badCommandDatagram "heartbeat" buf) ∧
    serverAcceptUniStream m recv (Header.connect a) =
      .error (.badCommandUniStream "connect" recv) ∧
    serverAcceptUniStream m recv Header.heartbeat =
      .error (.badCommandUniStream "heartbeat" recv) ∧
    serverAcceptBiStream m send recv (Header.authenticate token) =
      .error (.badCommandBiStream "authenticate" send recv) ∧
    serverAcceptBiStream m send recv (Header.packet pkt) =
      .error (.badCommandBiStream "packet" send recv) ∧
    serverAcceptBiStream m send recv (Header.dissociate aid) =
      .error (.badCommandBiStream "dissociate" send recv) ∧
    serverAcceptBiStream m send recv Header.heartbeat =
      .error (.badCommandBiStream "heartbeat" send recv) ∧
    serverAcceptDatagram m buf pos (Header.authenticate token) =
      some (.error (.badCommandDatagram "authenticate" buf)) ∧
    serverAcceptDatagram m buf pos (Header.connect a) =
      some (.error (.badCommandDatagram "connect" buf)) ∧
    serverAcceptDatagram m buf pos (Header.dissociate aid) =
      some (.error (.badCommandDatagram "dissociate" buf)) :=
  ⟨rfl, rfl, rfl, rfl, rfl, rfl, rfl, rfl, rfl, rfl, rfl,
    rfl, rfl, rfl, rfl, rfl, rfl, rfl, rfl, rfl, rfl, rfl⟩

/-- C2: the client-role `accept_datagram` length check is the strict
`pos + size < buf.len()`, so a well-formed exact-fit packet datagram
(remaining bytes equal to the declared size — exactly what the crate's
own senders produce) is rejected with a degenerate payload-length error
`PayloadLength(3, 3)` instead of yielding `Task::Packet`; a datagram with
spare trailing bytes is accepted with exactly the declared number of
payload bytes; and the server-role path has no length check at all, so an
oversized declared size panics in `slice` (modelled as `Option.none`)
rather than returning a payload-length error. -/
theorem c2_exact_fit_payload_refused :
    clientAcceptDatagram ⟨[7], 0, []⟩ [9, 9, 1, 2, 3] 2
        (Header.packet ⟨7, 0, 1, 0, 3, Address.none⟩) =
      .error (.payloadLength 3 3) ∧
    clientAcceptDatagram ⟨[7], 0, []⟩ [9, 9, 1, 2, 3, 4] 2
        (Header.packet ⟨7, 0, 1, 0, 3, Address.none⟩) =
      .ok (.packet ⟨⟨7, 0, 1, 0, 3, Address.none⟩, .native [1, 2, 3]⟩) ∧
    serverAcceptDatagram ⟨[], 0, []⟩ [9, 9, 1, 2] 2
        (Header.packet ⟨7, 0, 1, 0, 3, Address.none⟩) = Option.none :=
  ⟨rfl, rfl, rfl⟩

/-- C4: `packet_native` does fail immediately with the
datagram-send-disabled error when the transport reports no maximum
datagram size, but the datagram it sends per fragment is not the
marshalled header immediately followed by the fragment bytes: the
source's `vec![0; header.len() + frag.len()]` materialises that many zero
bytes and the header/payload writes append after them, so each datagram
carries a zero-filled prefix of the intended total length. -/
theorem c4_datagram_zero_prefix :
    packet_native ⟨Option.none⟩ ⟨[], 0, []⟩ [1, 2, 3] Address.none 0 =
      .error .sendDatagramDisabled ∧
    packet_native ⟨some 20⟩ ⟨[], 0, []⟩ [1, 2, 3] Address.none 0 =
      .ok [List.replicate 14 0 ++ marshalPkt ⟨0, 0, 1, 0, 3, Address.none⟩ ++ [1, 2, 3]] ∧
    List.replicate 14 0 ++ marshalPkt ⟨0, 0, 1, 0, 3, Address.none⟩ ++ [1, 2, 3] ≠
      marshalPkt ⟨0, 0, 1, 0, 3, Address.none⟩ ++ [1, 2, 3] :=
  ⟨rfl, rfl, by decide⟩

/-- C7: the target address survives a connect session end to end: a
client `connect(A)` yields a session whose `addr()` is `A`, and the
server's `accept_bi_stream` on a connect header with address `A` yields
`Task::Connect` whose session's `addr()` is `A`. -/
theorem c7_connect_addr_preserved (m : ConnModel) (send : SendStream) (recv : RecvStream)
    (sendc : SendStream) (recvc : RecvStream) (a : Address) :
    (clientConnect a sendc recvc).addr = some a ∧
    serverAcceptBiStream m send recv (Header.connect a) =
      .ok (.connect ⟨ConnectSide.server a, send, recv⟩) ∧
    (Connect.mk (ConnectSide.server a) send recv).addr = some a :=
  ⟨rfl, rfl, rfl⟩

/-- C8: a client-role connection rejects an inbound packet command (on a
uni-stream or datagram) whose association id is not among the locally
established associations, with an invalid-udp-session error naming that
id; a server-role connection accepts packet commands on both legal
channel kinds with no association requirement at all. -/
theorem c8_association_validation (m : ConnModel) (pkt : PacketHdr) (recv : RecvStream)
    (buf : Bytes) (pos : Nat) (h : pkt.assoc_id ∉ m.localAssocs)
    (hlen : pos + pkt.size ≤ buf.length) :
    clientAcceptUniStream m recv (Header.packet pkt) =
      .error (.invalidUdpSession pkt.assoc_id) ∧
    clientAcceptDatagram m buf pos (Header.packet pkt) =
      .error (.invalidUdpSession pkt.assoc_id) ∧
    serverAcceptUniStream m recv (Header.packet pkt) =
      .ok (.packet ⟨pkt, .quic recv⟩) ∧
    serverAcceptDatagram m buf pos (Header.packet pkt) =
      some (.ok (.packet ⟨pkt, .native ((buf.drop pos).take pkt.size)⟩)) := by
  refine ⟨?_, ?_, rfl, ?_⟩
  · simp [clientAcceptUniStream, h]
  · simp [clientAcceptDatagram, h]
  · simp [serverAcceptDatagram, hlen]

theorem c8_witness :
    (5 ∉ (ConnModel.mk [] 0 []).localAssocs ∧ 0 + 2 ≤ ([1, 2] : Bytes).length) ∧
    (clientAcceptUniStream ⟨[], 0, []⟩ [] (Header.packet ⟨5, 0, 1, 0, 2, Address.none⟩) =
        .error (.invalidUdpSession 5) ∧
      clientAcceptDatagram ⟨[], 0, []⟩ [1, 2] 0 (Header.packet ⟨5, 0, 1, 0, 2, Address.none⟩) =
        .error (.invalidUdpSession 5) ∧
      serverAcceptUniStream ⟨[], 0, []⟩ [] (Header.packet ⟨5, 0, 1, 0, 2, Address.none⟩) =
        .ok (.packet ⟨⟨5, 0, 1, 0, 2, Address.none⟩, .quic []⟩) ∧
      serverAcceptDatagram ⟨[], 0, []⟩ [1, 2] 0 (Header.packet ⟨5, 0, 1, 0, 2, Address.none⟩) =
        some (.ok (.packet ⟨⟨5, 0, 1, 0, 2, Address.none⟩,
          .native ((([1, 2] : Bytes).drop 0).take 2)⟩))) :=
  ⟨⟨by decide, by decide⟩,
    c8_association_validation ⟨[], 0, []⟩ ⟨5, 0, 1, 0, 2, Address.none⟩ [] [1, 2] 0
      (by decide) (by decide)⟩

/-- C9 counterexample: the claim asserts the server role exposes a
`heartbeat` sender, but the `impl Connection<side::Server>` block of
`lib.rs` declares no heartbeat method — only the shared senders are
available to the server role. -/
theorem c9_counterexample : "heartbeat" ∉ serverSenderFns := by decide

/-- C9 (amended): the server-role connection exposes no outbound connect,
dissociate, authenticate, or heartbeat senders; it exposes exactly the
shared `packet_native` and `packet_quic` senders.  The heartbeat sender
exists only on the client role, and it sends a heartbeat command over the
unreliable-datagram channel (failing when datagram support is absent). -/
theorem c9_server_senders_amended :
    "connect" ∉ serverSenderFns ∧ "dissociate" ∉ serverSenderFns ∧
    "authenticate" ∉ serverSenderFns ∧ "heartbeat" ∉ serverSenderFns ∧
    serverSenderFns = sharedSenderFns ∧
    "packet_native" ∈ serverSenderFns ∧ "packet_quic" ∈ serverSenderFns ∧
    "packet_native" ∈ clientSenderFns ∧ "packet_quic" ∈ clientSenderFns ∧
    "heartbeat" ∈ clientSenderFns ∧
    (∀ L : Nat, heartbeat ⟨some L⟩ = .ok marshalHeartbeat) ∧
    heartbeat ⟨Option.none⟩ = .error .sendDatagramDisabled :=
  ⟨by decide, by decide, by decide, by decide, rfl, by decide, by decide,
    by decide, by decide, by decide, fun _ => rfl, rfl⟩

/-- C10: every `Connect` session the public interface can produce — via
the client's `connect` or via the server's `accept_bi_stream` on a
connect header — carries a connect header on its client-side model, so
`Connect::addr` never reaches its `unreachable!` branch and always
returns an address. -/
theorem c10_connect_addr_total (c : Connect) (h : ConnectFromAPI c) :
    (Connect.addr c).isSome := by
  cases h with
  | ofClientConnect a send recv => rfl
  | ofServerAccept m send recv a c hacc =>
      have hc : Task.connect (Connect.mk (ConnectSide.server a) send recv) = Task.connect c :=
        Except.ok.inj hacc
      have hc2 : Connect.mk (ConnectSide.server a) send recv = c := by
        injection hc
      rw [← hc2]
      rfl

theorem c10_witness :
    ConnectFromAPI (clientConnect Address.none 0 []) ∧
      ((clientConnect Address.none 0 []).addr).isSome :=
  ⟨ConnectFromAPI.ofClientConnect Address.none 0 [],
    c10_connect_addr_total _ (ConnectFromAPI.ofClientConnect Address.none 0 [])⟩

/-- C3: for every payload and every datagram limit `L` above the header
overhead, `packet_native` sends one datagram per fragment and the model
splits the payload into ⌈P / L'⌉ fragments (`L'` = `L` minus header
overhead) whose indices are exactly `0, 1, …` contiguously; feeding all
fragments, in any arrival order, to a fresh receiving model reassembles
exactly the original payload bytes with their address and association
id. -/
theorem c3_fragmentation_reassembly (m : ConnModel) (la : List Nat) (np : Nat)
    (pkt : Bytes) (addr : Address) (assoc L : Nat) (arr : List (PacketHdr × Bytes))
    (hL : hdrOverhead addr < L) (hpkt : pkt ≠ [])
    (hperm : arr.Perm (into_fragments assoc m.nextPktId addr L pkt)) :
    (∃ ds, packet_native ⟨some L⟩ m pkt addr assoc = .ok ds ∧
      ds.length = (pkt.length + (L - hdrOverhead addr) - 1) / (L - hdrOverhead addr)) ∧
    ((into_fragments assoc m.nextPktId addr L pkt).map fun q => q.1.frag_id) =
      List.range (into_fragments assoc m.nextPktId addr L pkt).length ∧
    recvAll ⟨la, np, []⟩ Option.none arr =
      .ok (some ((pkt, addr, assoc)), ⟨la, np, []⟩) := by
  have hL0 : L - hdrOverhead addr ≠ 0 := by omega
  have hflat : (chunksOf (L - hdrOverhead addr) pkt).flatten = pkt := chunksOf_flatten hL0 pkt
  have hlen : (into_fragments assoc m.nextPktId addr L pkt).length =
      (chunksOf (L - hdrOverhead addr) pkt).length := by
    unfold into_fragments
    rw [tagFrags_length]
  refine ⟨⟨_, rfl, ?_⟩, into_fragments_map_fragId _ _ _ _ _, ?_⟩
  · rw [List.length_map, into_fragments_length hL]
  · have hne : arr ≠ [] := by
      intro hnil
      have h1 : (chunksOf (L - hdrOverhead addr) pkt).length = 0 := by
        rw [← hlen, ← hperm.length_eq, hnil]
        rfl
      have h2 : chunksOf (L - hdrOverhead addr) pkt = [] := List.length_eq_zero.mp h1
      rw [h2] at hflat
      have : pkt = [] := by simpa using hflat.symm
      exact hpkt this
    have hmem : ∀ q ∈ arr, ∃ j, j < (chunksOf (L - hdrOverhead addr) pkt).length ∧
        (chunksOf (L - hdrOverhead addr) pkt)[j]? = some q.2 ∧
        q.1 = ⟨assoc, m.nextPktId, (chunksOf (L - hdrOverhead addr) pkt).length, j,
          q.2.length, addr⟩ :=
      fun q hq => mem_into_fragments ((hperm.mem_iff).mp hq)
    have hperm2 : ((arr.map fun q : PacketHdr × Bytes => q.1.frag_id) ++ []).Perm
        (List.range (chunksOf (L - hdrOverhead addr) pkt).length) := by
      rw [List.append_nil, ← hlen, ← into_fragments_map_fragId assoc m.nextPktId addr L pkt]
      exact hperm.map _
    have hbufs : bufsFor assoc m.nextPktId addr (chunksOf (L - hdrOverhead addr) pkt) [] =
        [] := by
      simp [bufsFor]
    have hrun := recvAll_bufsFor (chunksOf (L - hdrOverhead addr) pkt) assoc m.nextPktId addr
      la np arr [] Option.none hne hmem hperm2
    rw [hbufs, hflat] at hrun
    exact hrun

theorem c3_witness :
    (hdrOverhead Address.none < 13 ∧ ([1, 2, 3, 4, 5] : Bytes) ≠ [] ∧
      ((into_fragments 9 0 Address.none 13 [1, 2, 3, 4, 5]).reverse).Perm
        (into_fragments 9 0 Address.none 13 [1, 2, 3, 4, 5])) ∧
    ((∃ ds, packet_native ⟨some 13⟩ ⟨[], 0, []⟩ [1, 2, 3, 4, 5] Address.none 9 = .ok ds ∧
        ds.length = (([1, 2, 3, 4, 5] : Bytes).length + (13 - hdrOverhead Address.none) - 1) /
          (13 - hdrOverhead Address.none)) ∧
      ((into_fragments 9 0 Address.none 13 [1, 2, 3, 4, 5]).map fun q => q.1.frag_id) =
        List.range (into_fragments 9 0 Address.none 13 [1, 2, 3, 4, 5]).length ∧
      recvAll ⟨[], 0, []⟩ Option.none
          ((into_fragments 9 0 Address.none 13 [1, 2, 3, 4, 5]).reverse) =
        .ok (some (([1, 2, 3, 4, 5], Address.none, 9)), ⟨[], 0, []⟩)) :=
  ⟨⟨by decide, by decide, List.reverse_perm _⟩,
    c3_fragmentation_reassembly ⟨[], 0, []⟩ [] 0 [1, 2, 3, 4, 5] Address.none 9 13
      ((into_fragments 9 0 Address.none 13 [1, 2, 3, 4, 5]).reverse)
      (by decide) (by decide) (List.reverse_perm _)⟩

/-- C5: `packet_quic` fragments the payload via the model at the maximum
size 65535 and opens one fresh unidirectional channel per fragment whose
transcript is exactly the marshalled header followed by the raw fragment
bytes; fragments fit in 65535 minus the header overhead (so each channel
transcript is at most 65535 bytes), the channel count is the fragment
count, and concatenating the fragments restores the payload. -/
theorem c5_packet_quic_channels (m : ConnModel) (pkt : Bytes) (addr : Address) (assoc : Nat)
    (hL : hdrOverhead addr < 65535) :
    packet_quic m pkt addr assoc =
      (into_fragments assoc m.nextPktId addr 65535 pkt).map
        (fun q => marshalPkt q.1 ++ q.2) ∧
    (packet_quic m pkt addr assoc).length =
      (pkt.length + (65535 - hdrOverhead addr) - 1) / (65535 - hdrOverhead addr) ∧
    (∀ q ∈ into_fragments assoc m.nextPktId addr 65535 pkt,
      q.2.length ≤ 65535 - hdrOverhead addr ∧ (marshalPkt q.1 ++ q.2).length ≤ 65535) ∧
    ((into_fragments assoc m.nextPktId addr 65535 pkt).map fun q => q.2).flatten = pkt := by
  have hL0 : 65535 - hdrOverhead addr ≠ 0 := by omega
  refine ⟨rfl, ?_, ?_, ?_⟩
  · unfold packet_quic
    rw [List.length_map, into_fragments_length hL]
  · intro q hq
    obtain ⟨j, hj, hjb, hq1⟩ := mem_into_fragments hq
    have hchunk : q.2 ∈ chunksOf (65535 - hdrOverhead addr) pkt := List.getElem?_mem hjb
    have hsize : q.2.length ≤ 65535 - hdrOverhead addr := mem_chunksOf hchunk
    refine ⟨hsize, ?_⟩
    rw [List.length_append, marshalPkt_length, hq1]
    show hdrOverhead addr + q.2.length ≤ 65535
    omega
  · unfold into_fragments
    rw [tagFrags_map_snd, chunksOf_flatten hL0]

theorem c5_witness :
    hdrOverhead Address.none < 65535 ∧
    (packet_quic ⟨[], 0, []⟩ [1, 2, 3] Address.none 4 =
      (into_fragments 4 0 Address.none 65535 [1, 2, 3]).map
        (fun q => marshalPkt q.1 ++ q.2) ∧
    (packet_quic ⟨[], 0, []⟩ [1, 2, 3] Address.none 4).length =
      (([1, 2, 3] : Bytes).length + (65535 - hdrOverhead Address.none) - 1) /
        (65535 - hdrOverhead Address.none) ∧
    (∀ q ∈ into_fragments 4 0 Address.none 65535 [1, 2, 3],
      q.2.length ≤ 65535 - hdrOverhead Address.none ∧
      (marshalPkt q.1 ++ q.2).length ≤ 65535) ∧
    ((into_fragments 4 0 Address.none 65535 [1, 2, 3]).map fun q => q.2).flatten =
      [1, 2, 3]) :=
  ⟨by decide, c5_packet_quic_channels ⟨[], 0, []⟩ [1, 2, 3] Address.none 4 (by decide)⟩

/-- C6: `Packet::accept` resolves a stream source with exactly one read
of exactly the header-declared length — a stream shorter than the
declared size fails with an error and exposes no partial bytes, and
bytes beyond the declared size are never consumed — while a resident
byte source is used directly; on success the assemble step yields
nothing while the packet's fragment set is still incomplete and yields
the fully reassembled payload with its address and association id once
every fragment has arrived.  (Consuming the `Packet` by value, so
`accept` can run at most once, is enforced by the source's move
semantics.) -/
theorem c6_packet_accept (m : ConnModel) (hdr : PacketHdr) (s u t b : Bytes)
    (frags : List Bytes) (assoc pid i : Nat) (addr : Address) (done la : List Nat) (np : Nat)
    (hshort : s.length < hdr.size)
    (hexact : u.length = hdr.size)
    (hi : i < frags.length) (hib : frags[i]? = some b) (hni : i ∉ done) :
    (Packet.mk hdr (PacketSource.quic s)).accept m = .error .earlyClose ∧
    (Packet.mk hdr (PacketSource.quic (u ++ t))).accept m = m.assemble hdr u ∧
    (Packet.mk hdr (PacketSource.native b)).accept m = m.assemble hdr b ∧
    ((∃ k, k < frags.length ∧ k ≠ i ∧ k ∉ done) →
      (Packet.mk ⟨assoc, pid, frags.length, i, b.length, addr⟩ (PacketSource.native b)).accept
          ⟨la, np, bufsFor assoc pid addr frags done⟩ =
        .ok (Option.none, ⟨la, np, bufsFor assoc pid addr frags (i :: done)⟩)) ∧
    ((∀ k < frags.length, k ∈ i :: done) →
      (Packet.mk ⟨assoc, pid, frags.length, i, b.length, addr⟩ (PacketSource.native b)).accept
          ⟨la, np, bufsFor assoc pid addr frags done⟩ =
        .ok (some ((frags.flatten, addr, assoc)), ⟨la, np, []⟩)) := by
  refine ⟨?_, ?_, rfl, ?_, ?_⟩
  · have hdef : (Packet.mk hdr (PacketSource.quic s)).accept m =
        if hdr.size ≤ s.length then m.assemble hdr (s.take hdr.size)
        else .error .earlyClose := rfl
    rw [hdef, if_neg (by omega)]
  · have hdef : (Packet.mk hdr (PacketSource.quic (u ++ t))).accept m =
        if hdr.size ≤ (u ++ t).length then m.assemble hdr ((u ++ t).take hdr.size)
        else .error .earlyClose := rfl
    rw [hdef, if_pos (by rw [List.length_append]; omega)]
    congr 1
    rw [← hexact, List.take_left]
  · intro ⟨k, hk, hki, hkd⟩
    show ConnModel.assemble _ _ _ = _
    rw [assemble_bufsFor frags assoc pid addr la np done hi hib hni]
    have hnall : ¬ (slotsFor frags (i :: done)).all Option.isSome = true := by
      intro hall
      have hkmem := (slotsFor_all_isSome _ _).1 hall k hk
      rcases List.mem_cons.mp hkmem with hcase | hcase
      · exact hki hcase
      · exact hkd hcase
    rw [if_neg hnall]
  · intro hall
    show ConnModel.assemble _ _ _ = _
    rw [assemble_bufsFor frags assoc pid addr la np done hi hib hni]
    rw [if_pos ((slotsFor_all_isSome _ _).2 hall)]

theorem c6_witness :
    (([1, 2] : Bytes).length < (PacketHdr.mk 1 0 2 0 3 Address.none).size ∧
      ([4, 5, 6] : Bytes).length = (PacketHdr.mk 1 0 2 0 3 Address.none).size ∧
      0 < ([[1], [2]] : List Bytes).length ∧
      ([[1], [2]] : List Bytes)[0]? = some [1] ∧
      0 ∉ ([] : List Nat)) ∧
    ((Packet.mk ⟨1, 0, 2, 0, 3, Address.none⟩ (PacketSource.quic [1, 2])).accept
        ⟨[], 0, []⟩ = .error .earlyClose ∧
      (Packet.mk ⟨1, 0, 2, 0, 3, Address.none⟩
          (PacketSource.quic ([4, 5, 6] ++ [7]))).accept ⟨[], 0, []⟩ =
        ConnModel.assemble ⟨[], 0, []⟩ ⟨1, 0, 2, 0, 3, Address.none⟩ [4, 5, 6] ∧
      (Packet.mk ⟨1, 0, 2, 0, 3, Address.none⟩ (PacketSource.native [1])).accept
          ⟨[], 0, []⟩ =
        ConnModel.assemble ⟨[], 0, []⟩ ⟨1, 0, 2, 0, 3, Address.none⟩ [1] ∧
      ((∃ k, k < ([[1], [2]] : List Bytes).length ∧ k ≠ 0 ∧ k ∉ ([] : List Nat)) →
        (Packet.mk ⟨1, 0, ([[1], [2]] : List Bytes).length, 0, ([1] : Bytes).length,
            Address.none⟩ (PacketSource.native [1])).accept
            ⟨[], 0, bufsFor 1 0 Address.none [[1], [2]] []⟩ =
          .ok (Option.none, ⟨[], 0, bufsFor 1 0 Address.none [[1], [2]] [0]⟩)) ∧
      ((∀ k < ([[1], [2]] : List Bytes).length, k ∈ [0]) →
        (Packet.mk ⟨1, 0, ([[1], [2]] : List Bytes).length, 0, ([1] : Bytes).length,
            Address.none⟩ (PacketSource.native [1])).accept
            ⟨[], 0, bufsFor 1 0 Address.none [[1], [2]] []⟩ =
          .ok (some ((([[1], [2]] : List Bytes).flatten, Address.none, 1)), ⟨[], 0, []⟩))) :=
  ⟨⟨by decide, by decide, by decide, by decide, by decide⟩,
    c6_packet_accept ⟨[], 0, []⟩ ⟨1, 0, 2, 0, 3, Address.none⟩ [1, 2] [4, 5, 6] [7] [1]
      [[1], [2]] 1 0 0 Address.none [] [] 0
      (by decide) (by decide) (by decide) (by decide) (by decide)⟩

end Tuic
